import Mathlib

/-!
Verification of the QComNetSim repository's core components against its
specification: the event scheduler of `benches/python/scheduler_benchmark.py`
(a faithful model of CPython's `heapq` as used there), the quantum state
primitives of `benches/python/quantum_benchmark.py`, and the outcome
statistics of `src/validation/sequence/two_node_barrett_kok.py`.
-/

set_option maxHeartbeats 1000000

namespace QComNetSim

/-- `Event` from `scheduler_benchmark.py`: a dataclass with fields
`time`, `event_type`, `node_id`.  Python floats are modelled as rationals.
`Event.__lt__` compares only the `time` field; that comparison is written
out explicitly at each use site below, exactly as `heapq` invokes `<`. -/
structure Evt where
  time : ℚ
  event_type : String
  node_id : ℕ
deriving DecidableEq, Repr, Inhabited

/-- Index read on a Python list, total via a default element
(all uses below stay in bounds). -/
def getE : List Evt → ℕ → Evt
  | [], _ => default
  | x :: _, 0 => x
  | _ :: xs, n + 1 => getE xs n

/-- Index write on a Python list (no-op out of bounds;
all uses below stay in bounds). -/
def setE : List Evt → ℕ → Evt → List Evt
  | [], _, _ => []
  | _ :: xs, 0, a => a :: xs
  | x :: xs, n + 1, a => x :: setE xs n a

/-- Parent index in the implicit binary tree of `heapq`: `(pos - 1) >> 1`. -/
def parentIdx (i : ℕ) : ℕ := (i - 1) / 2

/-- The body of CPython's `heapq._siftdown(heap, startpos, pos)` loop,
with `newitem = heap[pos]` read out beforehand as in the original.  The
loop walks `pos` up toward `startpos`, moving parents down while
`newitem < parent`.  The extra fuel argument makes the recursion
structural; `fuel ≥ pos` suffices (each step strictly decreases `pos`). -/
def siftdownFuel : ℕ → List Evt → ℕ → ℕ → Evt → List Evt
  | 0, heap, _, pos, newitem => setE heap pos newitem
  | fuel + 1, heap, startpos, pos, newitem =>
    if startpos < pos then
      if newitem.time < (getE heap (parentIdx pos)).time then
        siftdownFuel fuel (setE heap pos (getE heap (parentIdx pos))) startpos (parentIdx pos) newitem
      else
        setE heap pos newitem
    else
      setE heap pos newitem

/-- `heapq._siftdown(heap, startpos, pos)` with `newitem` passed explicitly. -/
def siftdownLoop (heap : List Evt) (startpos pos : ℕ) (newitem : Evt) : List Evt :=
  siftdownFuel pos heap startpos pos newitem

/-- `heapq._siftdown(heap, startpos, pos)`: reads `newitem = heap[pos]`. -/
def siftdown (heap : List Evt) (startpos pos : ℕ) : List Evt :=
  siftdownLoop heap startpos pos (getE heap pos)

/-- Child selection inside `heapq._siftup`: `childpos = 2*pos+1`, bumped to
`rightpos = childpos+1` when `rightpos < endpos and not heap[childpos] <
heap[rightpos]`. -/
def pickChild (heap : List Evt) (pos endpos : ℕ) : ℕ :=
  if 2 * pos + 2 < endpos ∧ ¬ (getE heap (2 * pos + 1)).time < (getE heap (2 * pos + 2)).time then
    2 * pos + 2
  else
    2 * pos + 1

/-- The loop of CPython's `heapq._siftup(heap, pos)`: the hole at `pos` is
moved down to a leaf, always along the smaller child; returns the final
list together with the final hole position.  `newitem` is written at the
final position, as in the original.  Fuel with `endpos - pos ≤ fuel`
makes the recursion structural. -/
def siftupFuel : ℕ → List Evt → ℕ → Evt → ℕ → List Evt × ℕ
  | 0, heap, pos, newitem, _ => (setE heap pos newitem, pos)
  | fuel + 1, heap, pos, newitem, endpos =>
    if 2 * pos + 1 < endpos then
      siftupFuel fuel (setE heap pos (getE heap (pickChild heap pos endpos))) (pickChild heap pos endpos) newitem endpos
    else
      (setE heap pos newitem, pos)

/-- `heapq._siftup(heap, pos)`: reads `newitem = heap[pos]`, runs the
bubble-down loop, then `_siftdown(heap, pos, finalpos)`. -/
def siftup (heap : List Evt) (pos : ℕ) : List Evt :=
  let r := siftupFuel heap.length heap pos (getE heap pos) heap.length
  siftdown r.1 pos r.2

/-- `heapq.heappush(heap, item)`: append then `_siftdown(heap, 0, len(heap)-1)`. -/
def heappush (heap : List Evt) (item : Evt) : List Evt :=
  siftdown (heap ++ [item]) 0 heap.length

/-- `heapq.heappop(heap)`: pop the last element; if the heap is still
non-empty, save `heap[0]`, overwrite position 0 with the popped last
element and `_siftup(heap, 0)`.  The empty case returns `none`, matching
`EventScheduler.next_event`'s guard. -/
def heappop (heap : List Evt) : Option (Evt × List Evt) :=
  match heap with
  | [] => none
  | [x] => some (x, [])
  | _ =>
    some (getE heap 0,
      siftup (setE (heap.take (heap.length - 1)) 0 (getE heap (heap.length - 1))) 0)

/-- `EventScheduler.schedule(event)`: `heapq.heappush(self.queue, event)`.
The scheduler state is its queue. -/
def EventScheduler.schedule (queue : List Evt) (event : Evt) : List Evt :=
  heappush queue event

/-- `EventScheduler.next_event()`: pops the heap if non-empty, otherwise
returns `None`; the pair carries the returned value and the new queue. -/
def EventScheduler.next_event (queue : List Evt) : Option Evt × List Evt :=
  match heappop queue with
  | some (e, q) => (some e, q)
  | none => (none, queue)

/-- `EventScheduler.has_events()`: `len(self.queue) > 0`. -/
def EventScheduler.has_events (queue : List Evt) : Bool :=
  decide (0 < queue.length)

/-- A scheduler queue built by `schedule`-ing a list of events in order
into a fresh `EventScheduler` (whose queue starts empty). -/
def mkQueue (events : List Evt) : List Evt :=
  events.foldl EventScheduler.schedule []

/-- Repeatedly call `next_event` until the queue is empty, collecting the
returned events in order; fuel-based, `fuel ≥ queue.length` suffices. -/
def drainFuel : ℕ → List Evt → List Evt
  | 0, _ => []
  | fuel + 1, queue =>
    match heappop queue with
    | none => []
    | some (e, q) => e :: drainFuel fuel q

/-- Drain the whole queue via repeated `next_event` calls. -/
def drain (queue : List Evt) : List Evt :=
  drainFuel queue.length queue

/-- The `heapq` shape invariant on the queue: every non-root entry is no
smaller (in `time`, the only field `Event.__lt__` compares) than its
parent. -/
def IsHeap (heap : List Evt) : Prop :=
  ∀ i, 0 < i → i < heap.length →
    (getE heap (parentIdx i)).time ≤ (getE heap i).time

/-- Hole invariant: the heap property holds at every pair of positions
not involving the hole `pos`. -/
def HoleHeap (heap : List Evt) (pos : ℕ) : Prop :=
  ∀ i, 0 < i → i < heap.length → i ≠ pos → parentIdx i ≠ pos →
    (getE heap (parentIdx i)).time ≤ (getE heap i).time

/-- Hole invariant: every child of the hole is at least `newitem`. -/
def HoleChildGe (heap : List Evt) (pos : ℕ) (newitem : Evt) : Prop :=
  ∀ i, 0 < i → i < heap.length → parentIdx i = pos →
    newitem.time ≤ (getE heap i).time

/-- Hole invariant: when the hole is not the root, every child of the
hole is at least the hole's parent. -/
def HoleParentGe (heap : List Evt) (pos : ℕ) : Prop :=
  ∀ i, 0 < i → i < heap.length → parentIdx i = pos → 0 < pos →
    (getE heap (parentIdx pos)).time ≤ (getE heap i).time

/-- `PAULI_X` from `quantum_benchmark.py`: `[[0, 1], [1, 0]]`. -/
def PAULI_X : Matrix (Fin 2) (Fin 2) ℂ := !![0, 1; 1, 0]

/-- `PAULI_Y` from `quantum_benchmark.py`: `[[0, -1j], [1j, 0]]`. -/
def PAULI_Y : Matrix (Fin 2) (Fin 2) ℂ := !![0, -Complex.I; Complex.I, 0]

/-- `PAULI_Z` from `quantum_benchmark.py`: `[[1, 0], [0, -1]]`. -/
def PAULI_Z : Matrix (Fin 2) (Fin 2) ℂ := !![1, 0; 0, -1]

/-- `HADAMARD` from `quantum_benchmark.py`: `(1/sqrt(2)) * [[1, 1], [1, -1]]`. -/
noncomputable def HADAMARD : Matrix (Fin 2) (Fin 2) ℂ :=
  (((1 : ℝ) / Real.sqrt 2 : ℝ) : ℂ) • !![1, 1; 1, -1]

/-- `apply_gate(state, gate)`: `gate @ state` (matrix-vector product). -/
noncomputable def apply_gate (state : Fin 2 → ℂ) (gate : Matrix (Fin 2) (Fin 2) ℂ) : Fin 2 → ℂ :=
  gate.mulVec state

/-- Squared Euclidean norm of a 2-dimensional complex vector. -/
def vecNormSq (v : Fin 2 → ℂ) : ℝ := ∑ i, Complex.normSq (v i)

/-- Euclidean norm of a 2-dimensional complex vector. -/
noncomputable def vecNorm (v : Fin 2 → ℂ) : ℝ := Real.sqrt (vecNormSq v)

/-- `np.vdot(state1, state2)`: sum of `conj(state1[i]) * state2[i]` over
paired entries. -/
noncomputable def vdot (state1 state2 : List ℂ) : ℂ :=
  (List.zipWith (fun x y => (starRingEnd ℂ) x * y) state1 state2).sum

/-- Error taxonomy member relevant to `fidelity`. -/
inductive QError where
  | dimensionMismatch
deriving DecidableEq, Repr

/-- `fidelity(state1, state2)`: `np.abs(np.vdot(state1, state2)) ** 2`.
`np.vdot` demands the two vectors have equally many elements and raises
`ValueError` otherwise; the error branch models that raise. -/
noncomputable def fidelity (state1 state2 : List ℂ) : Except QError ℝ :=
  if state1.length = state2.length then
    Except.ok (Complex.abs (vdot state1 state2) ^ 2)
  else
    Except.error QError.dimensionMismatch

/-- Sum of squared magnitudes of a state vector (`|state|²`). -/
def sumNormSq (l : List ℂ) : ℝ := (l.map Complex.normSq).sum

/-- Sum of `|x_i| * |y_i|` over paired entries (Cauchy-Schwarz helper). -/
noncomputable def absProdSum (a b : List ℂ) : ℝ :=
  (List.zipWith (fun x y => Complex.abs x * Complex.abs y) a b).sum

/-- The specification's inner product `⟨a|b⟩ = Σ conj(a_i)·b_i`, written
from the spec's words independently of the code's `np.vdot` translation
(compared against it in the C5 theorem). -/
noncomputable def specInnerProduct (a b : List ℂ) : ℂ :=
  ∑ i ∈ Finset.range (min a.length b.length),
    (starRingEnd ℂ) (a.getD i 0) * b.getD i 0

/-- `SimpleManager` counter state from `two_node_barrett_kok.py` (the
`owner`/`memo_name` references play no role in the claims). -/
structure SimpleManager where
  raw_counter : ℕ
  ent_counter : ℕ
  fidelities : List ℚ
deriving DecidableEq, Repr

/-- `SimpleManager.update(protocol, memory, state)`: on `'RAW'` increments
`raw_counter` (and resets the memory — a memory-side effect outside this
counter state); otherwise increments `ent_counter` and appends
`memory.fidelity` (passed here as `memory_fidelity`). -/
def SimpleManager.update (m : SimpleManager) (state : String) (memory_fidelity : ℚ) :
    SimpleManager :=
  if state = "RAW" then
    { m with raw_counter := m.raw_counter + 1 }
  else
    { m with ent_counter := m.ent_counter + 1,
             fidelities := m.fidelities ++ [memory_fidelity] }

/-- `run_experiment`: `success_rate = successes / total if total > 0 else 0`
where `total = successes + failures`. -/
def success_rate (successes failures : ℕ) : ℚ :=
  if 0 < successes + failures then (successes : ℚ) / ((successes : ℚ) + (failures : ℚ))
  else 0

/-- `run_experiment`: `throughput = successes / sim_time_seconds if
sim_time_seconds > 0 else 0`. -/
def throughput (successes : ℕ) (sim_time_seconds : ℚ) : ℚ :=
  if 0 < sim_time_seconds then (successes : ℚ) / sim_time_seconds else 0

/-- `run_experiment`: `avg_fidelity = sum(fidelities) / len(fidelities) if
fidelities else 0`. -/
def avg_fidelity (fidelities : List ℚ) : ℚ :=
  if fidelities ≠ [] then fidelities.sum / (fidelities.length : ℚ) else 0

/-- `run_experiment`: `expected_loss_db = attenuation * distance_m;`
`expected_transmission = 10 ** (-expected_loss_db / 10)` (real power). -/
noncomputable def expected_transmission (attenuation distance_m : ℝ) : ℝ :=
  (10 : ℝ) ^ (-(attenuation * distance_m) / 10)

theorem length_setE (l : List Evt) (i : ℕ) (a : Evt) : (setE l i a).length = l.length := by
  induction l generalizing i with
  | nil => rfl
  | cons x xs ih =>
    cases i with
    | zero => rfl
    | succ n => simp [setE, ih]

theorem getE_setE_self (l : List Evt) (i : ℕ) (a : Evt) (h : i < l.length) :
    getE (setE l i a) i = a := by
  induction l generalizing i with
  | nil => simp at h
  | cons x xs ih =>
    cases i with
    | zero => rfl
    | succ n =>
      simp only [setE, getE]
      exact ih n (by simpa using h)

theorem getE_setE_ne (l : List Evt) (i j : ℕ) (a : Evt) (h : i ≠ j) :
    getE (setE l i a) j = getE l j := by
  induction l generalizing i j with
  | nil => rfl
  | cons x xs ih =>
    cases i with
    | zero =>
      cases j with
      | zero => exact absurd rfl h
      | succ m => rfl
    | succ n =>
      cases j with
      | zero => rfl
      | succ m =>
        simp only [setE, getE]
        exact ih n m (by omega)

theorem mem_setE (l : List Evt) (i : ℕ) (a x : Evt) (h : x ∈ setE l i a) :
    x ∈ l ∨ x = a := by
  induction l generalizing i with
  | nil => simp [setE] at h
  | cons y ys ih =>
    cases i with
    | zero =>
      rcases List.mem_cons.mp h with h1 | h1
      · right; exact h1
      · left; exact List.mem_cons_of_mem _ h1
    | succ n =>
      rcases List.mem_cons.mp h with h1 | h1
      · left; simp [h1]
      · rcases ih n h1 with h2 | h2
        · left; exact List.mem_cons_of_mem _ h2
        · right; exact h2

theorem getE_mem (l : List Evt) (i : ℕ) (h : i < l.length) : getE l i ∈ l := by
  induction l generalizing i with
  | nil => simp at h
  | cons x xs ih =>
    cases i with
    | zero => exact List.mem_cons_self _ _
    | succ n => exact List.mem_cons_of_mem _ (ih n (by simpa using h))

theorem mem_getE (l : List Evt) (x : Evt) (h : x ∈ l) :
    ∃ i, i < l.length ∧ getE l i = x := by
  induction l with
  | nil => simp at h
  | cons y ys ih =>
    rcases List.mem_cons.mp h with h1 | h1
    · exact ⟨0, by simp, h1.symm⟩
    · obtain ⟨i, hi, hg⟩ := ih h1
      exact ⟨i + 1, by simpa using hi, hg⟩

theorem getE_append_lt (l1 l2 : List Evt) (i : ℕ) (h : i < l1.length) :
    getE (l1 ++ l2) i = getE l1 i := by
  induction l1 generalizing i with
  | nil => simp at h
  | cons x xs ih =>
    cases i with
    | zero => rfl
    | succ n =>
      simp only [List.cons_append, getE]
      exact ih n (by simpa using h)

theorem getE_append_len (l : List Evt) (x : Evt) : getE (l ++ [x]) l.length = x := by
  induction l with
  | nil => rfl
  | cons y ys ih => simpa [getE] using ih

theorem getE_take (l : List Evt) (k i : ℕ) (h : i < k) :
    getE (l.take k) i = getE l i := by
  induction l generalizing k i with
  | nil => simp
  | cons x xs ih =>
    cases k with
    | zero => omega
    | succ m =>
      cases i with
      | zero => rfl
      | succ n =>
        simp only [List.take, getE]
        exact ih m n (by omega)

theorem parentIdx_lt (i : ℕ) (h : 0 < i) : parentIdx i < i := by
  simp only [parentIdx]; omega

theorem parentIdx_eq_iff (i p : ℕ) (h : 0 < i) :
    parentIdx i = p ↔ (i = 2 * p + 1 ∨ i = 2 * p + 2) := by
  simp only [parentIdx]; omega

theorem length_siftdownFuel (fuel : ℕ) :
    ∀ heap sp pos item, (siftdownFuel fuel heap sp pos item).length = heap.length := by
  induction fuel with
  | zero => intro heap sp pos item; simp [siftdownFuel, length_setE]
  | succ fuel ih =>
    intro heap sp pos item
    simp only [siftdownFuel]
    split
    · split
      · rw [ih, length_setE]
      · rw [length_setE]
    · rw [length_setE]

theorem mem_siftdownFuel (fuel : ℕ) :
    ∀ heap sp pos item x, pos < heap.length →
      x ∈ siftdownFuel fuel heap sp pos item → x ∈ heap ∨ x = item := by
  induction fuel with
  | zero =>
    intro heap sp pos item x _ hx
    exact mem_setE _ _ _ _ (by simpa [siftdownFuel] using hx)
  | succ fuel ih =>
    intro heap sp pos item x hpos hx
    simp only [siftdownFuel] at hx
    split at hx
    · split at hx
      · rename_i hsp _
        have hplt : parentIdx pos < heap.length := lt_trans (parentIdx_lt pos (by omega)) hpos
        have := ih _ sp _ item x (by rw [length_setE]; exact lt_trans (parentIdx_lt pos (by omega)) hpos) hx
        rcases this with h1 | h1
        · rcases mem_setE _ _ _ _ h1 with h2 | h2
          · exact Or.inl h2
          · exact Or.inl (h2 ▸ getE_mem heap (parentIdx pos) hplt)
        · exact Or.inr h1
      · exact mem_setE _ _ _ _ hx
    · exact mem_setE _ _ _ _ hx

theorem item_mem_siftdownFuel (fuel : ℕ) :
    ∀ heap sp pos item, pos < heap.length →
      item ∈ siftdownFuel fuel heap sp pos item := by
  induction fuel with
  | zero =>
    intro heap sp pos item hpos
    have hm : getE (setE heap pos item) pos ∈ setE heap pos item :=
      getE_mem _ pos (by rwa [length_setE])
    rw [getE_setE_self heap pos item hpos] at hm
    simpa [siftdownFuel] using hm
  | succ fuel ih =>
    intro heap sp pos item hpos
    simp only [siftdownFuel]
    split
    · split
      · rename_i hsp _
        exact ih _ sp _ item (by rw [length_setE]; exact lt_trans (parentIdx_lt pos (by omega)) hpos)
      · have hm : getE (setE heap pos item) pos ∈ setE heap pos item :=
          getE_mem _ pos (by rwa [length_setE])
        rw [getE_setE_self heap pos item hpos] at hm
        exact hm
    · have hm : getE (setE heap pos item) pos ∈ setE heap pos item :=
        getE_mem _ pos (by rwa [length_setE])
      rw [getE_setE_self heap pos item hpos] at hm
      exact hm

/-- Filling the hole with `newitem` yields a heap, provided `newitem` is
below the hole's children and above the hole's parent. -/
theorem hole_fill_isHeap (heap : List Evt) (pos : ℕ) (newitem : Evt)
    (hpos : pos < heap.length)
    (hh : HoleHeap heap pos) (hc : HoleChildGe heap pos newitem)
    (hp : 0 < pos → (getE heap (parentIdx pos)).time ≤ newitem.time) :
    IsHeap (setE heap pos newitem) := by
  intro i hi0 hilen
  rw [length_setE] at hilen
  by_cases hip : i = pos
  · subst hip
    have hpar : parentIdx i ≠ i := Nat.ne_of_lt (parentIdx_lt i hi0)
    rw [getE_setE_self heap i newitem hpos, getE_setE_ne heap i (parentIdx i) newitem (Ne.symm hpar)]
    exact hp hi0
  · by_cases hpp : parentIdx i = pos
    · rw [hpp, getE_setE_self heap pos newitem hpos,
        getE_setE_ne heap pos i newitem (fun h => hip h.symm)]
      exact hc i hi0 hilen hpp
    · rw [getE_setE_ne heap pos i newitem (fun h => hip h.symm),
        getE_setE_ne heap pos (parentIdx i) newitem (fun h => hpp h.symm)]
      exact hh i hi0 hilen hip hpp

/-- Running the `_siftdown` loop from a state with a hole at `pos`
(satisfying the three hole invariants) restores the full heap property. -/
theorem siftdownFuel_isHeap (fuel : ℕ) :
    ∀ pos heap newitem, pos ≤ fuel → pos < heap.length →
      HoleHeap heap pos → HoleChildGe heap pos newitem → HoleParentGe heap pos →
      IsHeap (siftdownFuel fuel heap 0 pos newitem) := by
  induction fuel with
  | zero =>
    intro pos heap newitem hf hpos hh hc hp
    have hp0 : pos = 0 := by omega
    subst hp0
    simp only [siftdownFuel]
    exact hole_fill_isHeap heap 0 newitem hpos hh hc (fun h => absurd h (lt_irrefl 0))
  | succ fuel ih =>
    intro pos heap newitem hf hpos hh hc hp
    simp only [siftdownFuel]
    split
    · rename_i hsp
      have hppos : parentIdx pos < pos := parentIdx_lt pos hsp
      have hplen : parentIdx pos < heap.length := lt_trans hppos hpos
      split
      · rename_i hlt
        apply ih (parentIdx pos) (setE heap pos (getE heap (parentIdx pos))) newitem
          (by omega) (by rw [length_setE]; exact hplen)
        · -- HoleHeap at the new hole
          intro i hi0 hilen hip hpip
          rw [length_setE] at hilen
          have hine : i ≠ pos := by
            intro h; subst h; exact hpip rfl
          by_cases hpi : parentIdx i = pos
          · rw [hpi, getE_setE_self heap pos _ hpos,
              getE_setE_ne heap pos i _ (fun h => hine h.symm)]
            exact hp i hi0 hilen hpi hsp
          · rw [getE_setE_ne heap pos i _ (fun h => hine h.symm),
              getE_setE_ne heap pos (parentIdx i) _ (fun h => hpi h.symm)]
            exact hh i hi0 hilen hine hpi
        · -- HoleChildGe at the new hole
          intro i hi0 hilen hpi
          rw [length_setE] at hilen
          by_cases hipos : i = pos
          · subst hipos
            rw [getE_setE_self heap i _ hpos]
            exact le_of_lt hlt
          · rw [getE_setE_ne heap pos i _ (fun h => hipos h.symm)]
            have hstep := hh i hi0 hilen hipos (by rw [hpi]; exact Nat.ne_of_lt hppos)
            rw [hpi] at hstep
            exact le_trans (le_of_lt hlt) hstep
        · -- HoleParentGe at the new hole
          intro i hi0 hilen hpi hp0
          rw [length_setE] at hilen
          have hglt : parentIdx (parentIdx pos) < parentIdx pos := parentIdx_lt _ hp0
          have hgne : parentIdx (parentIdx pos) ≠ pos := by omega
          rw [getE_setE_ne heap pos (parentIdx (parentIdx pos)) _ (fun h => hgne h.symm)]
          have hgp : (getE heap (parentIdx (parentIdx pos))).time ≤
              (getE heap (parentIdx pos)).time :=
            hh (parentIdx pos) hp0 hplen (Nat.ne_of_lt hppos) (by omega)
          by_cases hipos : i = pos
          · subst hipos
            rw [getE_setE_self heap i _ hpos]
            exact hgp
          · rw [getE_setE_ne heap pos i _ (fun h => hipos h.symm)]
            have hstep := hh i hi0 hilen hipos (by rw [hpi]; exact Nat.ne_of_lt hppos)
            rw [hpi] at hstep
            exact le_trans hgp hstep
      · rename_i hnlt
        exact hole_fill_isHeap heap pos newitem hpos hh hc (fun _ => le_of_not_lt hnlt)
    · rename_i hnsp
      have hp0 : pos = 0 := by omega
      subst hp0
      exact hole_fill_isHeap heap 0 newitem hpos hh hc (fun h => absurd h (lt_irrefl 0))

theorem heappush_isHeap (heap : List Evt) (item : Evt) (hh : IsHeap heap) :
    IsHeap (heappush heap item) := by
  have hlen : heap.length < (heap ++ [item]).length := by simp
  have hread : getE (heap ++ [item]) heap.length = item := getE_append_len heap item
  show IsHeap (siftdownFuel heap.length (heap ++ [item]) 0 heap.length
    (getE (heap ++ [item]) heap.length))
  apply siftdownFuel_isHeap heap.length heap.length (heap ++ [item]) _ le_rfl hlen
  · intro i hi0 hilen hine hpne
    simp only [List.length_append, List.length_singleton] at hilen
    have hilt : i < heap.length := by omega
    have hplt : parentIdx i < heap.length := lt_trans (parentIdx_lt i hi0) hilt
    rw [getE_append_lt heap [item] i hilt, getE_append_lt heap [item] (parentIdx i) hplt]
    exact hh i hi0 hilt
  · intro i hi0 hilen hpi
    rw [parentIdx_eq_iff i heap.length hi0] at hpi
    simp only [List.length_append, List.length_singleton] at hilen
    omega
  · intro i hi0 hilen hpi _
    rw [parentIdx_eq_iff i heap.length hi0] at hpi
    simp only [List.length_append, List.length_singleton] at hilen
    omega

theorem length_heappush (heap : List Evt) (item : Evt) :
    (heappush heap item).length = heap.length + 1 := by
  show (siftdownFuel heap.length (heap ++ [item]) 0 heap.length _).length = heap.length + 1
  rw [length_siftdownFuel]
  simp

theorem item_mem_heappush (heap : List Evt) (item : Evt) :
    item ∈ heappush heap item := by
  have hread : getE (heap ++ [item]) heap.length = item := getE_append_len heap item
  show item ∈ siftdownFuel heap.length (heap ++ [item]) 0 heap.length
    (getE (heap ++ [item]) heap.length)
  rw [hread]
  exact item_mem_siftdownFuel heap.length (heap ++ [item]) 0 heap.length item (by simp)

/-- Phase-1 (`_siftup` loop) specification: starting from a hole at `pos`
satisfying `HoleHeap` and `HoleParentGe`, the loop ends with `newitem`
written at a leaf position, the hole invariant intact, the length
unchanged, and every element drawn from the original list or `newitem`. -/
theorem siftupFuel_spec (fuel : ℕ) :
    ∀ heap pos newitem endpos, endpos = heap.length → endpos - pos ≤ fuel →
      pos < endpos → HoleHeap heap pos → HoleParentGe heap pos →
      (siftupFuel fuel heap pos newitem endpos).1.length = heap.length ∧
      (siftupFuel fuel heap pos newitem endpos).2 < endpos ∧
      endpos ≤ 2 * (siftupFuel fuel heap pos newitem endpos).2 + 1 ∧
      getE (siftupFuel fuel heap pos newitem endpos).1
        (siftupFuel fuel heap pos newitem endpos).2 = newitem ∧
      HoleHeap (siftupFuel fuel heap pos newitem endpos).1
        (siftupFuel fuel heap pos newitem endpos).2 ∧
      (∀ x ∈ (siftupFuel fuel heap pos newitem endpos).1, x ∈ heap ∨ x = newitem) := by
  induction fuel with
  | zero =>
    intro heap pos newitem endpos hend hf hpos hh hp
    omega
  | succ fuel ih =>
    intro heap pos newitem endpos hend hf hpos hh hp
    simp only [siftupFuel]
    split
    · rename_i hguard
      have hc1 : pickChild heap pos endpos = 2 * pos + 1 ∨
          pickChild heap pos endpos = 2 * pos + 2 := by
        unfold pickChild; split
        · right; rfl
        · left; rfl
      have hc2 : pickChild heap pos endpos < endpos := by
        unfold pickChild; split
        · omega
        · exact hguard
      have hc3 : parentIdx (pickChild heap pos endpos) = pos := by
        rw [parentIdx_eq_iff _ pos (by rcases hc1 with h | h <;> omega)]
        exact hc1
      have hcpos : pos < pickChild heap pos endpos := by rcases hc1 with h | h <;> omega
      -- the chosen child is the smaller one
      have hc4 : ∀ j, 0 < j → j < endpos → parentIdx j = pos → j ≠ pickChild heap pos endpos →
          (getE heap (pickChild heap pos endpos)).time ≤ (getE heap j).time := by
        intro j hj0 hjend hjp hjne
        rw [parentIdx_eq_iff j pos hj0] at hjp
        unfold pickChild at hjne ⊢
        by_cases hcond : 2 * pos + 2 < endpos ∧
            ¬ (getE heap (2 * pos + 1)).time < (getE heap (2 * pos + 2)).time
        · rw [if_pos hcond] at hjne ⊢
          rcases hjp with h | h
          · subst h; exact le_of_not_lt hcond.2
          · omega
        · rw [if_neg hcond] at hjne ⊢
          rcases hjp with h | h
          · omega
          · subst h
            rw [not_and_or, not_not] at hcond
            rcases hcond with h2 | h2
            · omega
            · exact le_of_lt h2
      -- invariants at the new hole
      have hh' : HoleHeap (setE heap pos (getE heap (pickChild heap pos endpos)))
          (pickChild heap pos endpos) := by
        intro i hi0 hilen hine hpne
        rw [length_setE, ← hend] at hilen
        by_cases hipos : i = pos
        · subst hipos
          have hi0' := hi0
          have hparne : parentIdx i ≠ i := Nat.ne_of_lt (parentIdx_lt i hi0)
          rw [getE_setE_self heap i _ (by omega),
            getE_setE_ne heap i (parentIdx i) _ (fun h => hparne h.symm)]
          exact hp (pickChild heap i endpos) (by omega) (by omega) hc3 hi0
        · by_cases hpi : parentIdx i = pos
          · rw [hpi, getE_setE_self heap pos _ (by omega),
              getE_setE_ne heap pos i _ (fun h => hipos h.symm)]
            exact hc4 i hi0 (by omega) hpi hine
          · rw [getE_setE_ne heap pos i _ (fun h => hipos h.symm),
              getE_setE_ne heap pos (parentIdx i) _ (fun h => hpi h.symm)]
            exact hh i hi0 (by omega) hipos hpi
      have hp' : HoleParentGe (setE heap pos (getE heap (pickChild heap pos endpos)))
          (pickChild heap pos endpos) := by
        intro i hi0 hilen hpi hcp
        rw [length_setE, ← hend] at hilen
        have higt : pickChild heap pos endpos < i := by
          have := parentIdx_lt i hi0
          omega
        rw [hc3, getE_setE_self heap pos _ (by omega),
          getE_setE_ne heap pos i _ (by omega)]
        have hstep := hh i hi0 (by omega) (by omega) (by rw [hpi]; omega)
        rw [hpi] at hstep
        exact hstep
      have hres := ih (setE heap pos (getE heap (pickChild heap pos endpos)))
        (pickChild heap pos endpos) newitem endpos (by rw [length_setE]; exact hend)
        (by omega) hc2 hh' hp'
      refine ⟨by rw [hres.1, length_setE], hres.2.1, hres.2.2.1, hres.2.2.2.1,
        hres.2.2.2.2.1, ?_⟩
      intro x hx
      rcases hres.2.2.2.2.2 x hx with h1 | h1
      · rcases mem_setE _ _ _ _ h1 with h2 | h2
        · exact Or.inl h2
        · exact Or.inl (h2 ▸ getE_mem heap (pickChild heap pos endpos) (by omega))
      · exact Or.inr h1
    · rename_i hguard
      have hposlen : pos < heap.length := hend ▸ hpos
      refine ⟨length_setE heap pos newitem, hpos, by omega,
        getE_setE_self heap pos newitem hposlen, ?_, ?_⟩
      · intro i hi0 hilen hine hpne
        rw [length_setE] at hilen
        rw [getE_setE_ne heap pos i _ (fun h => hine h.symm),
          getE_setE_ne heap pos (parentIdx i) _ (fun h => hpne h.symm)]
        exact hh i hi0 hilen hine hpne
      · intro x hx
        exact mem_setE _ _ _ _ hx

theorem siftup_spec (heap : List Evt) (h0 : 0 < heap.length) (hh : HoleHeap heap 0) :
    IsHeap (siftup heap 0) ∧ (siftup heap 0).length = heap.length ∧
      (∀ x ∈ siftup heap 0, x ∈ heap) := by
  have hp : HoleParentGe heap 0 := fun i _ _ _ h => absurd h (lt_irrefl 0)
  have hres := siftupFuel_spec heap.length heap 0 (getE heap 0) heap.length rfl
    (by omega) h0 hh hp
  obtain ⟨hlen, hposlt, hleaf, hget, hhole, hmem⟩ := hres
  have hkey : IsHeap (siftup heap 0) := by
    show IsHeap (siftdown _ 0 _)
    unfold siftdown siftdownLoop
    rw [hget]
    apply siftdownFuel_isHeap _ _ _ _ le_rfl (by rw [hlen]; exact hposlt) hhole
    · intro i hi0 hilen hpi
      rw [hlen] at hilen
      rw [parentIdx_eq_iff i _ hi0] at hpi
      omega
    · intro i hi0 hilen hpi _
      rw [hlen] at hilen
      rw [parentIdx_eq_iff i _ hi0] at hpi
      omega
  refine ⟨hkey, ?_, ?_⟩
  · show (siftdown _ 0 _).length = heap.length
    unfold siftdown siftdownLoop
    rw [length_siftdownFuel, hlen]
  · intro x hx
    have hx' : x ∈ siftdownFuel _ _ 0 _ (getE _ _) := hx
    rw [hget] at hx'
    rcases mem_siftdownFuel _ _ 0 _ _ x (by rw [hlen]; exact hposlt) hx' with h1 | h1
    · rcases hmem x h1 with h2 | h2
      · exact h2
      · exact h2 ▸ getE_mem heap 0 h0
    · exact h1 ▸ getE_mem heap 0 h0

/-- In a heap, the root is a minimum-time element. -/
theorem isHeap_root_le (heap : List Evt) (hh : IsHeap heap) :
    ∀ i, i < heap.length → (getE heap 0).time ≤ (getE heap i).time := by
  intro i
  induction i using Nat.strong_induction_on with
  | _ i ih =>
    intro hilen
    rcases Nat.eq_zero_or_pos i with h0 | h0
    · subst h0; exact le_refl _
    · exact le_trans
        (ih (parentIdx i) (parentIdx_lt i h0) (lt_trans (parentIdx_lt i h0) hilen))
        (hh i h0 hilen)

/-- `heappop` on a non-empty heap returns the root (a minimum-time
element), and leaves a heap one shorter whose elements all come from the
original. -/
theorem heappop_spec (heap : List Evt) (hne : heap ≠ []) (hh : IsHeap heap) :
    ∃ q, heappop heap = some (getE heap 0, q) ∧ q.length = heap.length - 1 ∧
      IsHeap q ∧ (∀ x ∈ q, x ∈ heap) := by
  match heap with
  | [] => exact absurd rfl hne
  | [x] =>
    refine ⟨[], rfl, rfl, fun i hi0 hilen => by simp at hilen, by simp⟩
  | a :: b :: t =>
    set heap := a :: b :: t with hhd
    have hlen2 : 2 ≤ heap.length := by rw [hhd]; simp
    set L := setE (heap.take (heap.length - 1)) 0 (getE heap (heap.length - 1)) with hL
    have hLlen : L.length = heap.length - 1 := by
      rw [hL, length_setE, List.length_take]
      omega
    have hL0 : 0 < L.length := by omega
    have hLhole : HoleHeap L 0 := by
      intro i hi0 hilen hine hpne
      rw [hL, getE_setE_ne _ 0 i _ (fun h => hine h.symm),
        getE_setE_ne _ 0 (parentIdx i) _ (fun h => hpne h.symm),
        getE_take heap (heap.length - 1) i (by omega),
        getE_take heap (heap.length - 1) (parentIdx i)
          (lt_of_le_of_lt (Nat.le_of_lt (parentIdx_lt i hi0)) (by omega))]
      rw [hLlen] at hilen
      exact hh i hi0 (by omega)
    obtain ⟨hq1, hq2, hq3⟩ := siftup_spec L hL0 hLhole
    refine ⟨siftup L 0, rfl, by rw [hq2, hLlen], hq1, ?_⟩
    intro x hx
    rcases mem_setE _ _ _ _ (by rw [← hL]; exact hq3 x hx : x ∈ setE (heap.take (heap.length - 1)) 0 (getE heap (heap.length - 1))) with h1 | h1
    · exact List.mem_of_mem_take h1
    · exact h1 ▸ getE_mem heap (heap.length - 1) (by omega)

theorem heappop_none (heap : List Evt) : heappop heap = none ↔ heap = [] := by
  match heap with
  | [] => simp [heappop]
  | [x] => simp [heappop]
  | a :: b :: t => simp [heappop]

/-- Draining a heap via repeated pops yields a time-sorted list of
elements of the heap, of the same length. -/
theorem drainFuel_spec (fuel : ℕ) :
    ∀ q, q.length ≤ fuel → IsHeap q →
      List.Chain' (fun a b : Evt => a.time ≤ b.time) (drainFuel fuel q) ∧
      (∀ x ∈ drainFuel fuel q, x ∈ q) ∧ (drainFuel fuel q).length = q.length := by
  induction fuel with
  | zero =>
    intro q hlen hh
    have : q = [] := List.length_eq_zero.mp (by omega)
    subst this
    exact ⟨List.chain'_nil, by simp [drainFuel], by simp [drainFuel]⟩
  | succ fuel ih =>
    intro q hlen hh
    rcases eq_or_ne q [] with hq | hq
    · subst hq
      exact ⟨by simp [drainFuel, heappop], by simp [drainFuel, heappop], by simp [drainFuel, heappop]⟩
    · obtain ⟨q2, hpop, hq2len, hq2heap, hq2mem⟩ := heappop_spec q hq hh
      have hqpos : 0 < q.length := List.length_pos.mpr hq
      have hrec := ih q2 (by omega) hq2heap
      have hdrain : drainFuel (fuel + 1) q = getE q 0 :: drainFuel fuel q2 := by
        simp [drainFuel, hpop]
      rw [hdrain]
      refine ⟨?_, ?_, ?_⟩
      · rw [List.chain'_cons']
        refine ⟨?_, hrec.1⟩
        intro b hb
        have hbmem : b ∈ drainFuel fuel q2 := List.mem_of_mem_head? hb
        have hbq : b ∈ q := hq2mem b (hrec.2.1 b hbmem)
        obtain ⟨i, hi, hgi⟩ := mem_getE q b hbq
        exact hgi ▸ isHeap_root_le q hh i hi
      · intro x hx
        rcases List.mem_cons.mp hx with h1 | h1
        · exact h1 ▸ getE_mem q 0 hqpos
        · exact hq2mem x (hrec.2.1 x h1)
      · simp only [List.length_cons, hrec.2.2]
        omega

theorem mkQueue_isHeap (events : List Evt) : IsHeap (mkQueue events) := by
  have hgen : ∀ (es : List Evt) (q : List Evt), IsHeap q →
      IsHeap (es.foldl EventScheduler.schedule q) := by
    intro es
    induction es with
    | nil => intro q hq; exact hq
    | cons e es ih =>
      intro q hq
      exact ih (EventScheduler.schedule q e) (heappush_isHeap q e hq)
  exact hgen events [] (fun i hi0 hilen => by simp at hilen)

theorem mkQueue_length (events : List Evt) : (mkQueue events).length = events.length := by
  have hgen : ∀ (es : List Evt) (q : List Evt),
      (es.foldl EventScheduler.schedule q).length = q.length + es.length := by
    intro es
    induction es with
    | nil => intro q; simp
    | cons e es ih =>
      intro q
      show (es.foldl EventScheduler.schedule (EventScheduler.schedule q e)).length = _
      rw [ih, EventScheduler.schedule, length_heappush]
      simp
      omega
  simpa using hgen events []

/-- C1 (amended): for every sequence of events inserted via
`EventScheduler.schedule`, repeatedly calling `next_event` until the queue
is empty returns all the inserted events in non-decreasing time order;
equal-time events, however, may come back in an order other than their
insertion order (the heap is not stable — see the counterexample). -/
theorem scheduler_drain_time_ordered (events : List Evt) :
    List.Chain' (fun a b : Evt => a.time ≤ b.time) (drain (mkQueue events)) ∧
    (drain (mkQueue events)).length = events.length ∧
    (∀ x ∈ drain (mkQueue events), x ∈ mkQueue events) := by
  have hh := mkQueue_isHeap events
  have hs := drainFuel_spec (mkQueue events).length (mkQueue events) le_rfl hh
  exact ⟨hs.1, by rw [drain, hs.2.2, mkQueue_length], hs.2.1⟩

/-- C1 counterexample: four events scheduled with the same time `0` and
`node_id`s 0,1,2,3 (in that insertion order) drain in the order 0,2,1,3 —
event 2 overtakes event 1 — so equal-time events are NOT returned in FIFO
insertion order, refuting the tie-break part of the claim.
(`Event.__lt__` compares only `time`, and `heapq` is not stable.) -/
theorem scheduler_fifo_tiebreak_counterexample :
    drain (mkQueue [⟨0, "EntanglementGeneration", 0⟩, ⟨0, "EntanglementGeneration", 1⟩,
        ⟨0, "EntanglementGeneration", 2⟩, ⟨0, "EntanglementGeneration", 3⟩]) =
      [⟨0, "EntanglementGeneration", 0⟩, ⟨0, "EntanglementGeneration", 2⟩,
        ⟨0, "EntanglementGeneration", 1⟩, ⟨0, "EntanglementGeneration", 3⟩] ∧
    [(⟨0, "EntanglementGeneration", 0⟩ : Evt), ⟨0, "EntanglementGeneration", 2⟩,
        ⟨0, "EntanglementGeneration", 1⟩, ⟨0, "EntanglementGeneration", 3⟩] ≠
      [⟨0, "EntanglementGeneration", 0⟩, ⟨0, "EntanglementGeneration", 1⟩,
        ⟨0, "EntanglementGeneration", 2⟩, ⟨0, "EntanglementGeneration", 3⟩] := by
  exact ⟨by decide, by decide⟩

/-- C2 counterexample: `EventScheduler.schedule` maintains no current time
and performs no causality check; scheduling an event with time `0` into a
scheduler whose only pending event has time `5` succeeds and inserts the
event into the queue (it becomes the new heap root), instead of failing
with a `CausalityViolation` as the claim asserts. -/
theorem schedule_no_causality_check_counterexample :
    EventScheduler.schedule
        (EventScheduler.schedule [] ⟨5, "EntanglementGeneration", 0⟩)
        ⟨0, "EntanglementGeneration", 1⟩ =
      [⟨0, "EntanglementGeneration", 1⟩, ⟨5, "EntanglementGeneration", 0⟩] := by
  decide

/-- C2 (amended): `schedule` never fails: for every scheduler state and
every event — whatever its time — the call unconditionally inserts the
event (queue grows by one and contains it).  The benchmark scheduler has
no notion of current time, so no `CausalityViolation` can occur. -/
theorem schedule_always_inserts (q : List Evt) (e : Evt) :
    (EventScheduler.schedule q e).length = q.length + 1 ∧
      e ∈ EventScheduler.schedule q e :=
  ⟨length_heappush q e, item_mem_heappush q e⟩

/-- C10: on any queue built by `schedule` calls, `has_events` is `true`
exactly when the queue is non-empty; `next_event` returns `None` (leaving
the queue unchanged) when it is empty, and otherwise returns a pending
event of minimum time. -/
theorem next_event_min_or_none (events : List Evt) :
    (EventScheduler.has_events (mkQueue events) = true ↔ mkQueue events ≠ []) ∧
    (mkQueue events = [] →
      EventScheduler.next_event (mkQueue events) = (none, mkQueue events)) ∧
    (mkQueue events ≠ [] →
      ∃ e q2, EventScheduler.next_event (mkQueue events) = (some e, q2) ∧
        e ∈ mkQueue events ∧ ∀ x ∈ mkQueue events, e.time ≤ x.time) := by
  refine ⟨?_, ?_, ?_⟩
  · simp [EventScheduler.has_events, List.length_pos]
  · intro h
    rw [h]
    simp [EventScheduler.next_event, heappop]
  · intro h
    obtain ⟨q, hpop, _, _, _⟩ := heappop_spec (mkQueue events) h (mkQueue_isHeap events)
    refine ⟨getE (mkQueue events) 0, q, ?_, ?_, ?_⟩
    · simp [EventScheduler.next_event, hpop]
    · exact getE_mem _ 0 (List.length_pos.mpr h)
    · intro x hx
      obtain ⟨i, hi, hg⟩ := mem_getE _ x hx
      exact hg ▸ isHeap_root_le _ (mkQueue_isHeap events) i hi

/-- Witness for C10 at a concrete two-event schedule. -/
theorem next_event_min_or_none_witness :
    EventScheduler.has_events (mkQueue [⟨3, "E", 0⟩, ⟨1, "E", 1⟩]) = true ∧
    ∃ e q2, EventScheduler.next_event (mkQueue [⟨3, "E", 0⟩, ⟨1, "E", 1⟩]) = (some e, q2) ∧
      e ∈ mkQueue [⟨3, "E", 0⟩, ⟨1, "E", 1⟩] ∧
      ∀ x ∈ mkQueue [⟨3, "E", 0⟩, ⟨1, "E", 1⟩], e.time ≤ x.time := by
  have h := next_event_min_or_none [⟨3, "E", 0⟩, ⟨1, "E", 1⟩]
  exact ⟨h.1.mpr (by decide), h.2.2 (by decide)⟩

theorem normSq_add_sub (a b : ℂ) :
    Complex.normSq (a + b) + Complex.normSq (a - b) =
      2 * (Complex.normSq a + Complex.normSq b) := by
  simp only [Complex.normSq_apply, Complex.add_re, Complex.add_im, Complex.sub_re,
    Complex.sub_im]
  ring

theorem vecNormSq_pauli_x (v : Fin 2 → ℂ) :
    vecNormSq (apply_gate v PAULI_X) = vecNormSq v := by
  simp [vecNormSq, apply_gate, PAULI_X, Matrix.mulVec, Matrix.dotProduct,
    Fin.sum_univ_two]
  ring

theorem vecNormSq_pauli_y (v : Fin 2 → ℂ) :
    vecNormSq (apply_gate v PAULI_Y) = vecNormSq v := by
  simp [vecNormSq, apply_gate, PAULI_Y, Matrix.mulVec, Matrix.dotProduct,
    Fin.sum_univ_two, Complex.normSq_mul]
  ring

theorem vecNormSq_pauli_z (v : Fin 2 → ℂ) :
    vecNormSq (apply_gate v PAULI_Z) = vecNormSq v := by
  simp [vecNormSq, apply_gate, PAULI_Z, Matrix.mulVec, Matrix.dotProduct,
    Fin.sum_univ_two, Complex.normSq_mul]

theorem vecNormSq_hadamard (v : Fin 2 → ℂ) :
    vecNormSq (apply_gate v HADAMARD) = vecNormSq v := by
  have h2 : Real.sqrt 2 * Real.sqrt 2 = 2 := Real.mul_self_sqrt (by norm_num)
  simp only [vecNormSq, apply_gate, HADAMARD, Matrix.smul_mulVec_assoc, Pi.smul_apply,
    Complex.real_smul, Complex.normSq_mul, Complex.normSq_ofReal, Matrix.mulVec,
    Matrix.dotProduct, Fin.sum_univ_two]
  simp [Matrix.cons_val_zero, Matrix.cons_val_one, Matrix.head_cons, one_mul, neg_mul]
  have hfac1 : ((Real.sqrt 2 : ℂ))⁻¹ * v 0 + ((Real.sqrt 2 : ℂ))⁻¹ * v 1 =
      ((Real.sqrt 2 : ℂ))⁻¹ * (v 0 + v 1) := by ring
  have hfac2 : ((Real.sqrt 2 : ℂ))⁻¹ * v 0 + -(((Real.sqrt 2 : ℂ))⁻¹ * v 1) =
      ((Real.sqrt 2 : ℂ))⁻¹ * (v 0 - v 1) := by ring
  rw [hfac1, hfac2, Complex.normSq_mul, Complex.normSq_mul, Complex.normSq_inv,
    Complex.normSq_ofReal, ← mul_add, normSq_add_sub, h2]
  ring

/-- C3: each of the four provided named gates (`PAULI_X`, `PAULI_Y`,
`PAULI_Z`, `HADAMARD`) preserves the Euclidean norm of every
2-dimensional complex state vector under `apply_gate` — exactly, hence in
particular within the 1e-9 tolerance. -/
theorem apply_gate_preserves_norm (v : Fin 2 → ℂ) :
    vecNorm (apply_gate v PAULI_X) = vecNorm v ∧
    vecNorm (apply_gate v PAULI_Y) = vecNorm v ∧
    vecNorm (apply_gate v PAULI_Z) = vecNorm v ∧
    vecNorm (apply_gate v HADAMARD) = vecNorm v := by
  unfold vecNorm
  exact ⟨congrArg Real.sqrt (vecNormSq_pauli_x v),
    congrArg Real.sqrt (vecNormSq_pauli_y v),
    congrArg Real.sqrt (vecNormSq_pauli_z v),
    congrArg Real.sqrt (vecNormSq_hadamard v)⟩

theorem vdot_self (s : List ℂ) : vdot s s = ((sumNormSq s : ℝ) : ℂ) := by
  induction s with
  | nil => simp [vdot, sumNormSq]
  | cons x xs ih =>
    have h1 : vdot (x :: xs) (x :: xs) = (starRingEnd ℂ) x * x + vdot xs xs := rfl
    have h2 : sumNormSq (x :: xs) = Complex.normSq x + sumNormSq xs := rfl
    rw [h1, h2, ih, ← Complex.normSq_eq_conj_mul_self]
    push_cast
    ring

theorem vdot_conj_symm (a b : List ℂ) : vdot b a = (starRingEnd ℂ) (vdot a b) := by
  induction a generalizing b with
  | nil => cases b <;> simp [vdot]
  | cons x xs ih =>
    cases b with
    | nil => simp [vdot]
    | cons y ys =>
      simp only [vdot, List.zipWith_cons_cons, List.sum_cons, map_add, map_mul,
        Complex.conj_conj]
      rw [show (List.zipWith (fun u v => (starRingEnd ℂ) u * v) ys xs).sum = vdot ys xs from rfl,
        ih ys]
      rw [show (List.zipWith (fun u v => (starRingEnd ℂ) u * v) xs ys).sum = vdot xs ys from rfl]
      ring

theorem specInnerProduct_nil (b : List ℂ) : specInnerProduct [] b = 0 := by
  simp [specInnerProduct]

theorem specInnerProduct_cons (x y : ℂ) (xs ys : List ℂ) :
    specInnerProduct (x :: xs) (y :: ys) =
      (starRingEnd ℂ) x * y + specInnerProduct xs ys := by
  unfold specInnerProduct
  rw [show min (x :: xs).length (y :: ys).length = min xs.length ys.length + 1 from by
    simp [Nat.succ_min_succ]]
  rw [Finset.sum_range_succ']
  simp [List.getD]
  ring

/-- The code's `np.vdot` translation agrees with the specification's
inner product `⟨a|b⟩`. -/
theorem vdot_eq_specInnerProduct (a b : List ℂ) : vdot a b = specInnerProduct a b := by
  induction a generalizing b with
  | nil => simp [vdot, specInnerProduct_nil]
  | cons x xs ih =>
    cases b with
    | nil => simp [vdot, specInnerProduct]
    | cons y ys =>
      rw [specInnerProduct_cons]
      simp only [vdot, List.zipWith_cons_cons, List.sum_cons]
      rw [show (List.zipWith (fun u v => (starRingEnd ℂ) u * v) xs ys).sum = vdot xs ys from rfl,
        ih ys]

theorem sumNormSq_nonneg (l : List ℂ) : 0 ≤ sumNormSq l := by
  induction l with
  | nil => simp [sumNormSq]
  | cons x xs ih =>
    simp only [sumNormSq, List.map_cons, List.sum_cons]
    have := Complex.normSq_nonneg x
    rw [show (List.map Complex.normSq xs).sum = sumNormSq xs from rfl]
    linarith

theorem absProdSum_nonneg (a b : List ℂ) : 0 ≤ absProdSum a b := by
  induction a generalizing b with
  | nil => simp [absProdSum]
  | cons x xs ih =>
    cases b with
    | nil => simp [absProdSum]
    | cons y ys =>
      simp only [absProdSum, List.zipWith_cons_cons, List.sum_cons]
      have h1 : 0 ≤ Complex.abs x * Complex.abs y :=
        mul_nonneg (Complex.abs.nonneg x) (Complex.abs.nonneg y)
      have h2 := ih ys
      rw [show (List.zipWith (fun u v => Complex.abs u * Complex.abs v) xs ys).sum =
        absProdSum xs ys from rfl]
      linarith

theorem abs_vdot_le_absProdSum (a b : List ℂ) :
    Complex.abs (vdot a b) ≤ absProdSum a b := by
  induction a generalizing b with
  | nil => simp [vdot, absProdSum]
  | cons x xs ih =>
    cases b with
    | nil => simp [vdot, absProdSum]
    | cons y ys =>
      simp only [vdot, absProdSum, List.zipWith_cons_cons, List.sum_cons]
      rw [show (List.zipWith (fun u v => (starRingEnd ℂ) u * v) xs ys).sum = vdot xs ys from rfl,
        show (List.zipWith (fun u v => Complex.abs u * Complex.abs v) xs ys).sum =
          absProdSum xs ys from rfl]
      calc Complex.abs ((starRingEnd ℂ) x * y + vdot xs ys)
          ≤ Complex.abs ((starRingEnd ℂ) x * y) + Complex.abs (vdot xs ys) :=
            Complex.abs.add_le _ _
        _ ≤ Complex.abs x * Complex.abs y + absProdSum xs ys := by
            rw [map_mul, Complex.abs_conj]
            exact add_le_add_left (ih ys) _

/-- List-level Cauchy-Schwarz for the paired-magnitude sum. -/
theorem absProdSum_sq_le (a b : List ℂ) (h : a.length = b.length) :
    absProdSum a b ^ 2 ≤ sumNormSq a * sumNormSq b := by
  induction a generalizing b with
  | nil =>
    have : b = [] := List.length_eq_zero.mp (by simpa using h.symm)
    subst this
    simp [absProdSum, sumNormSq]
  | cons x xs ih =>
    cases b with
    | nil => simp at h
    | cons y ys =>
      have hlen : xs.length = ys.length := by simpa using h
      have IH := ih ys hlen
      show (Complex.abs x * Complex.abs y + absProdSum xs ys) ^ 2 ≤
        (Complex.normSq x + sumNormSq xs) * (Complex.normSq y + sumNormSq ys)
      have hA := sumNormSq_nonneg xs
      have hB := sumNormSq_nonneg ys
      have hS := absProdSum_nonneg xs ys
      have hax := Complex.abs.nonneg x
      have hay := Complex.abs.nonneg y
      rw [← Complex.sq_abs x, ← Complex.sq_abs y]
      have hsq : Real.sqrt (sumNormSq xs) ^ 2 = sumNormSq xs := Real.sq_sqrt hA
      have hsq2 : Real.sqrt (sumNormSq ys) ^ 2 = sumNormSq ys := Real.sq_sqrt hB
      have hS_le : absProdSum xs ys ≤
          Real.sqrt (sumNormSq xs) * Real.sqrt (sumNormSq ys) := by
        rw [← Real.sqrt_mul hA]
        exact Real.le_sqrt_of_sq_le IH
      nlinarith [sq_nonneg (Complex.abs x * Real.sqrt (sumNormSq ys) -
        Complex.abs y * Real.sqrt (sumNormSq xs)),
        Real.sqrt_nonneg (sumNormSq xs), Real.sqrt_nonneg (sumNormSq ys),
        mul_nonneg hax hay]

/-- C4: for every normalized state `s`, `fidelity(s, s)` returns exactly 1
(hence 1 within tolerance), and for every pair of equal-dimension states
`fidelity(a, b) = fidelity(b, a)`. -/
theorem fidelity_self_one_and_symm (s a b : List ℂ) :
    (sumNormSq s = 1 → fidelity s s = Except.ok 1) ∧
    (a.length = b.length → fidelity a b = fidelity b a) := by
  constructor
  · intro hs
    simp only [fidelity, if_pos rfl]
    rw [vdot_self, hs]
    simp
  · intro hab
    simp only [fidelity]
    rw [if_pos hab, if_pos hab.symm, vdot_conj_symm a b, Complex.abs_conj]

/-- Witness for C4 at the concrete states `[1,0]` and `[1]`, `[i]`. -/
theorem fidelity_self_one_and_symm_witness :
    fidelity [(1 : ℂ), 0] [(1 : ℂ), 0] = Except.ok 1 ∧
    fidelity [(1 : ℂ)] [Complex.I] = fidelity [Complex.I] [(1 : ℂ)] :=
  ⟨(fidelity_self_one_and_symm [(1 : ℂ), 0] [] []).1 (by simp [sumNormSq]),
    (fidelity_self_one_and_symm [] [(1 : ℂ)] [Complex.I]).2 rfl⟩

/-- C5: for every pair of normalized equal-dimension states, `fidelity`
returns `|⟨a|b⟩|²` (with `⟨a|b⟩` the specification's inner product,
written independently of the code's `np.vdot`), and that value lies in
`[0, 1]`. -/
theorem fidelity_eq_inner_sq_unit_interval (a b : List ℂ)
    (hab : a.length = b.length) (ha : sumNormSq a = 1) (hb : sumNormSq b = 1) :
    fidelity a b = Except.ok (Complex.abs (specInnerProduct a b) ^ 2) ∧
    0 ≤ Complex.abs (specInnerProduct a b) ^ 2 ∧
    Complex.abs (specInnerProduct a b) ^ 2 ≤ 1 := by
  have hval : Complex.abs (specInnerProduct a b) ^ 2 ≤ 1 := by
    rw [← vdot_eq_specInnerProduct]
    have h1 := abs_vdot_le_absProdSum a b
    have h2 := absProdSum_sq_le a b hab
    have h3 : Complex.abs (vdot a b) ^ 2 ≤ absProdSum a b ^ 2 :=
      pow_le_pow_left₀ (Complex.abs.nonneg _) h1 2
    rw [ha, hb] at h2
    linarith
  refine ⟨?_, sq_nonneg _, hval⟩
  simp only [fidelity]
  rw [if_pos hab, vdot_eq_specInnerProduct]

/-- Witness for C5 at the concrete basis states `[1,0]` and `[0,1]`. -/
theorem fidelity_eq_inner_sq_unit_interval_witness :
    fidelity [(1 : ℂ), 0] [(0 : ℂ), 1] =
      Except.ok (Complex.abs (specInnerProduct [(1 : ℂ), 0] [(0 : ℂ), 1]) ^ 2) ∧
    0 ≤ Complex.abs (specInnerProduct [(1 : ℂ), 0] [(0 : ℂ), 1]) ^ 2 ∧
    Complex.abs (specInnerProduct [(1 : ℂ), 0] [(0 : ℂ), 1]) ^ 2 ≤ 1 :=
  fidelity_eq_inner_sq_unit_interval [(1 : ℂ), 0] [(0 : ℂ), 1] rfl
    (by simp [sumNormSq]) (by simp [sumNormSq])

/-- C6: for states of differing dimension, `fidelity` fails with the
dimension-mismatch error (modelling `np.vdot`'s `ValueError`) rather than
returning a value. -/
theorem fidelity_dimension_mismatch (a b : List ℂ) (h : a.length ≠ b.length) :
    fidelity a b = Except.error QError.dimensionMismatch := by
  simp [fidelity, h]

/-- Witness for C6 at the concrete states `[1]` and `[0,1]`. -/
theorem fidelity_dimension_mismatch_witness :
    fidelity [(1 : ℂ)] [(0 : ℂ), 1] = Except.error QError.dimensionMismatch :=
  fidelity_dimension_mismatch [(1 : ℂ)] [(0 : ℂ), 1] (by simp)

/-- C7: the derived statistics of `run_experiment` are total:
`success_rate = successes/(successes+failures)` once at least one attempt
is recorded and 0 with none; average fidelity is 0 with no recorded
fidelities; throughput is 0 at zero elapsed simulated time.  Each is a
total function of the counters — the guarded branches make a zero
denominator unreachable, so no arithmetic error can arise. -/
theorem derived_stats_total (successes failures : ℕ) (fids : List ℚ) (t : ℚ) :
    (0 < successes + failures →
      success_rate successes failures =
        (successes : ℚ) / ((successes : ℚ) + (failures : ℚ))) ∧
    (successes + failures = 0 → success_rate successes failures = 0) ∧
    (fids = [] → avg_fidelity fids = 0) ∧
    (t = 0 → throughput successes t = 0) := by
  refine ⟨fun h => ?_, fun h => ?_, fun h => ?_, fun h => ?_⟩
  · rw [success_rate, if_pos h]
  · rw [success_rate, if_neg (by omega)]
  · rw [avg_fidelity, if_neg (by simp [h])]
  · rw [throughput, if_neg (by rw [h]; exact lt_irrefl 0)]

/-- Witness for C7 at concrete counter values. -/
theorem derived_stats_total_witness :
    success_rate 1 1 = (1 : ℚ) / ((1 : ℚ) + (1 : ℚ)) ∧ success_rate 0 0 = 0 ∧
    avg_fidelity [] = 0 ∧ throughput 5 0 = 0 := by
  refine ⟨?_, ?_, ?_, ?_⟩
  · exact (derived_stats_total 1 1 [] 0).1 (by norm_num)
  · exact (derived_stats_total 0 0 [] 0).2.1 rfl
  · exact (derived_stats_total 0 0 [] 0).2.2.1 rfl
  · exact (derived_stats_total 5 0 [] 0).2.2.2 rfl

/-- C8: for every non-negative attenuation and non-negative (finite, as
all reals are) distance, the expected transmission probability
`10^(−attenuation·distance/10)` lies in the interval `(0, 1]`. -/
theorem expected_transmission_in_unit_interval (attenuation distance_m : ℝ)
    (ha : 0 ≤ attenuation) (hd : 0 ≤ distance_m) :
    0 < expected_transmission attenuation distance_m ∧
      expected_transmission attenuation distance_m ≤ 1 := by
  unfold expected_transmission
  constructor
  · exact Real.rpow_pos_of_pos (by norm_num) _
  · apply Real.rpow_le_one_of_one_le_of_nonpos (by norm_num)
    have hnn : 0 ≤ attenuation * distance_m := mul_nonneg ha hd
    linarith

/-- Witness for C8 at the repository's default parameters
(attenuation 0.0002 dB/m, distance 1000 m). -/
theorem expected_transmission_in_unit_interval_witness :
    0 < expected_transmission 0.0002 1000 ∧ expected_transmission 0.0002 1000 ≤ 1 :=
  expected_transmission_in_unit_interval 0.0002 1000 (by norm_num) (by norm_num)

/-- C9: every `SimpleManager.update` call increments exactly one of
`raw_counter`/`ent_counter` by exactly 1 (so their sum counts completed
attempts), appends `memory.fidelity` to the history exactly for non-RAW
outcomes, and never removes or reorders previously recorded fidelities
(the history either stays unchanged or grows by one appended element). -/
theorem simple_manager_update_spec (m : SimpleManager) (state : String) (f : ℚ) :
    ((m.update state f).raw_counter + (m.update state f).ent_counter =
      m.raw_counter + m.ent_counter + 1) ∧
    (state = "RAW" →
      (m.update state f).raw_counter = m.raw_counter + 1 ∧
      (m.update state f).ent_counter = m.ent_counter ∧
      (m.update state f).fidelities = m.fidelities) ∧
    (state ≠ "RAW" →
      (m.update state f).ent_counter = m.ent_counter + 1 ∧
      (m.update state f).raw_counter = m.raw_counter ∧
      (m.update state f).fidelities = m.fidelities ++ [f]) := by
  by_cases h : state = "RAW"
  · have hu : m.update state f = { m with raw_counter := m.raw_counter + 1 } := by
      rw [SimpleManager.update, if_pos h]
    rw [hu]
    refine ⟨?_, fun _ => ⟨rfl, rfl, rfl⟩, fun hn => absurd h hn⟩
    show m.raw_counter + 1 + m.ent_counter = m.raw_counter + m.ent_counter + 1
    omega
  · have hu : m.update state f =
        { m with ent_counter := m.ent_counter + 1, fidelities := m.fidelities ++ [f] } := by
      rw [SimpleManager.update, if_neg h]
    rw [hu]
    refine ⟨?_, fun hr => absurd hr h, fun _ => ⟨rfl, rfl, rfl⟩⟩
    show m.raw_counter + (m.ent_counter + 1) = m.raw_counter + m.ent_counter + 1
    omega

/-- Witness for C9 at a concrete manager state, for a RAW and a
non-RAW (`"ENTANGLED"`) outcome. -/
theorem simple_manager_update_spec_witness :
    (({ raw_counter := 2, ent_counter := 3, fidelities := [1/2] } : SimpleManager).update
        "RAW" (9/10)).fidelities = [1/2] ∧
    (({ raw_counter := 2, ent_counter := 3, fidelities := [1/2] } : SimpleManager).update
        "ENTANGLED" (9/10)).fidelities = [1/2] ++ [9/10] := by
  refine ⟨?_, ?_⟩
  · exact ((simple_manager_update_spec ⟨2, 3, [1/2]⟩ "RAW" (9/10)).2.1 rfl).2.2
  · exact ((simple_manager_update_spec ⟨2, 3, [1/2]⟩ "ENTANGLED" (9/10)).2.2
      (by decide)).2.2

end QComNetSim
